import Mathlib

/-!
Verification of the dashport-strategies OAuth strategy classes.

Strings are modelled as `List Char` (`Str`).  JavaScript string operations
used by the source (`includes`, `replace` of the first occurrence,
`split`, `slice`, indexing) are given as executable Lean functions below,
and the strategy methods of `spotifyStrategy.ts`, `githubStrategy.ts` and
`localStrategy.ts` are embedded on top of them.  The external collaborators
(the HTTP fetch transport and the Base64 library) are modelled as explicit
parameters / request values: a strategy phase that performs a network call
returns the request it would send, and the provider response is an input.
-/

namespace Dashport

abbrev Str := List Char

/-- JS `pat` is a prefix of `s` (helper for `includes` / `replace`). -/
def leadsWith : Str → Str → Bool
  | [], _ => true
  | _ :: _, [] => false
  | p :: ps, c :: cs => decide (p = c) && leadsWith ps cs

/-- JS `s.includes(pat)` for strings. -/
def hasSub (pat : Str) : Str → Bool
  | [] => decide (pat = [])
  | c :: cs => leadsWith pat (c :: cs) || hasSub pat cs

/-- JS `s.replace(pat, rep)`: replaces the first occurrence of `pat`, if any. -/
def replFirst (pat rep : Str) : Str → Str
  | [] => []
  | c :: cs =>
    if leadsWith pat (c :: cs) then rep ++ (c :: cs).drop pat.length
    else c :: replFirst pat rep cs

/-- The JS loop `while (s.includes(pat)) s = s.replace(pat, rep)`, with
explicit fuel.  The callers pass enough fuel for the loop to reach its
fixed point (proved below), so the fuel is innocuous. -/
def whileRepl (pat rep : Str) : Nat → Str → Str
  | 0, s => s
  | Nat.succ n, s =>
    if hasSub pat s then whileRepl pat rep n (replFirst pat rep s) else s

/-- JS `s.split(sep)` for a single-character separator. -/
def splitOnChar (sep : Char) : Str → List Str
  | [] => [[]]
  | c :: cs =>
    if c = sep then [] :: splitOnChar sep cs
    else
      match splitOnChar sep cs with
      | [] => [[c]]
      | t :: ts => (c :: t) :: ts

/-- The longest initial segment of `s` not containing `sep`. -/
def upTo (sep : Char) : Str → Str
  | [] => []
  | c :: cs => if c = sep then [] else c :: upTo sep cs

/-- Everything after the first occurrence of `sep` (empty if none). -/
def dropThrough (sep : Char) : Str → Str
  | [] => []
  | c :: cs => if c = sep then cs else dropThrough sep cs

/-- `key=value` pieces joined by single `&` separators. -/
def joinAmp : List Str → Str
  | [] => []
  | [x] => x
  | x :: y :: t => x ++ '&' :: joinAmp (y :: t)

/-- Pieces each followed by a `&` (the shape `constructURI` accumulates). -/
def ampChunks : List Str → Str
  | [] => []
  | x :: t => x ++ '&' :: ampChunks t

/-- The tail of `constructURI`: drops one trailing `&` if the last
character is `&` (JS `paramString[paramString.length - 1] === '&'`). -/
def stripAmp (paramString : Str) : Str :=
  if paramString.getLast? = some '&' then paramString.dropLast else paramString

/-- JS `skip.includes(key)` for the skip array of `constructURI`. -/
def hasKey : List Str → Str → Bool
  | [], _ => false
  | x :: t, k => decide (x = k) || hasKey t k

/-- JS string conversion of a possibly-undefined option value. -/
def optStr (o : Option Str) : Str := o.getD "undefined".data

/-- JS truthiness of an option value: present and non-empty. -/
def truthy (o : Option Str) : Bool :=
  match o with
  | none => false
  | some s => decide (s ≠ [])

/-- Property access `options[k]` on the duck-typed option bag, modelled as
an insertion-ordered association list. -/
def getOpt (opts : List (Str × Str)) (k : Str) : Option Str := List.lookup k opts

/-- The loop body of `constructURI`: skip the entry, or append
`key=` and then `value&`. -/
def uriStep (skip : List Str) (paramString : Str) (kv : Str × Str) : Str :=
  if hasKey skip kv.1 then paramString
  else paramString ++ (kv.1 ++ '=' :: (kv.2 ++ ['&']))

/-- `constructURI` of spotifyStrategy.ts (lines 41-61) and
githubStrategy.ts (lines 39-59), identical in both files: appends
`key=value&` for every entry whose key is not in `skip`, then strips one
trailing `&` if present. -/
def constructURI (options : List (Str × Str)) (skip : List Str) : Str :=
  stripAmp (options.foldl (uriStep skip) [])

/-- The fixed replacement table of `parseCode` (spotifyStrategy.ts
lines 64-87, githubStrategy.ts lines 62-84). -/
def replacements : List (Str × Char) :=
  [("%24".data, '$'), ("%26".data, '&'), ("%2B".data, '+'), ("%2C".data, ','),
   ("%2F".data, '/'), ("%3A".data, ':'), ("%3B".data, ';'), ("%3D".data, '='),
   ("%3F".data, '?'), ("%40".data, '@')]

/-- One entry of the outer `for` loop of `parseCode`: run the `while`
replacement loop to its fixed point for one table entry. -/
def decodeStep (s : Str) (pr : Str × Char) : Str :=
  whileRepl pr.1 [pr.2] (s.length + 1) s

/-- `parseCode` of spotifyStrategy.ts (lines 64-87) and
githubStrategy.ts (lines 62-84): for each table entry in order, replace
occurrences until none remains. -/
def parseCode (encodedCode : Str) : Str :=
  replacements.foldl decodeStep encodedCode

/-- The first table entry whose code is a prefix of `s`, if any (at most
one can match, since all codes are three characters long). -/
def findRepl : List (Str × Char) → Str → Option Char
  | [], _ => none
  | pr :: t, s => if leadsWith pr.1 s then some pr.2 else findRepl t s

/-- Modelled from the claim wording of C6: a single left-to-right pass
that replaces each occurrence of one of the ten table codes with its
literal character and copies every other character unchanged.  All table
codes are three characters long and start with `%`, a character no code
contains elsewhere, so occurrences never overlap and the pass is
unambiguous.  `parseCode` is proved equal to this specification. -/
def specDecode : Str → Str
  | [] => []
  | c :: cs =>
    match findRepl replacements (c :: cs) with
    | some lit => lit :: specDecode ((c :: cs).drop 3)
    | none => c :: specDecode cs
termination_by s => s.length
decreasing_by
  · simp only [List.length_drop, List.length_cons]
    omega
  · simp

/-- Body of an outbound HTTP request: a URL-encoded string (Spotify token
exchange) or a flat JSON object (GitHub token exchange, before
`JSON.stringify`). -/
inductive Body where
  | urlencoded (s : Str)
  | jsonObj (fields : List (Str × Str))
deriving DecidableEq

/-- An outbound `fetch` request as the strategy code assembles it. -/
structure FetchReq where
  url : Str
  method : Str
  headers : List (Str × Str)
  body : Option Body
deriving DecidableEq

/-- Result of the code-exchange phase up to the network call: an Error
value returned to the host, an uncaught JS exception, or the token
request handed to the fetch transport. -/
inductive TokenPhase where
  | errVal (msg : Str)
  | thrown
  | fetch (req : FetchReq)
deriving DecidableEq

/-- Result of the router entry point: a redirect, dispatch into the
code-exchange phase, or the fall-through (JS `undefined`) when neither
branch fires. -/
inductive RouterResult where
  | redirect (url : Str)
  | tokenPhase (t : TokenPhase)
  | unhandled
deriving DecidableEq

/-- TokenData as assembled by `getAuthData`; absent JSON fields are
`none` (JS `undefined`). -/
structure TokenData where
  access_token : Option Str := none
  token_type : Option Str := none
  scope : Option Str := none
  expires_in : Option Str := none
  refresh_token : Option Str := none
deriving DecidableEq

/-- The nested `name` object of a UserProfile. -/
structure NameParts where
  familyName : Option Str := none
deriving DecidableEq

/-- The standardized user profile assembled by `getAuthData`. -/
structure UserInfo where
  provider : Str
  providerUserId : Option Str
  displayName : Option Str := none
  nameParts : Option NameParts := none
  emails : List (Option Str) := []
deriving DecidableEq

/-- The terminal artifact `AuthData` of a flow. -/
structure AuthData where
  tokenData : TokenData
  userInfo : UserInfo
deriving DecidableEq

/-- Result of the profile-fetch phase: the assembled AuthData or a
returned Error value. -/
inductive DataResult where
  | ret (a : AuthData)
  | err (msg : Str)
deriving DecidableEq

/-- Result of the local strategy router: the `{ userInfo }` wrapper, a
returned Error value, or (never produced, proved below) an outbound
request. -/
inductive LocalResult (V : Type) where
  | ret (userInfo : V)
  | err (msg : Str)
  | fetch (req : FetchReq)

namespace Spotify

def providerName : Str := "spotify".data
def authURL : Str := "https://accounts.spotify.com/authorize?".data
def tokenURL : Str := "https://accounts.spotify.com/api/token?".data
def authDataURL : Str := "https://api.spotify.com/v1/me?".data
def ctorMsg : Str :=
  "ERROR in SpotifyStrategy constructor: Missing required arguments".data
def tokenErrMsg : Str :=
  "ERROR in getAuthToken: Received an error from auth token code request.".data
def oauthExcMsg : Str :=
  "ERROR in getAuthToken: Token request threw OAuth exception.".data

/-- The fields of a constructed `SpotifyStrategy` instance. -/
structure Strategy where
  options : List (Str × Str)
  uriFromParams : Str
deriving DecidableEq

/-- The `SpotifyStrategy` constructor (spotifyStrategy.ts lines 29-39):
throws unless `client_id`, `redirect_uri`, `state` and `client_secret`
are all truthy; caches `constructURI(options, ['client_secret'])`. -/
def make (options : List (Str × Str)) : Except Str Strategy :=
  if !truthy (getOpt options "client_id".data)
      || !truthy (getOpt options "redirect_uri".data)
      || !truthy (getOpt options "state".data)
      || !truthy (getOpt options "client_secret".data) then
    Except.error ctorMsg
  else
    Except.ok { options := options,
                uriFromParams := constructURI options ["client_secret".data] }

/-- `authorize` (spotifyStrategy.ts lines 98-100): the single redirect
call `ctx.response.redirect(this.authURL + this.uriFromParams)`. -/
def authorize (s : Strategy) : RouterResult :=
  RouterResult.redirect (authURL ++ s.uriFromParams)

/-- The token request assembled at spotifyStrategy.ts lines 124-137:
Basic auth header from the Base64 library (an external collaborator,
passed as `base64`) and a URL-encoded body built by `constructURI`. -/
def tokenReq (base64 : Str → Str) (s : Strategy) (code : Str) : FetchReq :=
  let b64 := base64 (optStr (getOpt s.options "client_id".data)
    ++ ':' :: optStr (getOpt s.options "client_secret".data))
  { url := tokenURL
    method := "POST".data
    headers := [("Authorization".data, "Basic ".data ++ b64),
                ("Content-Type".data, "application/x-www-form-urlencoded".data)]
    body := some (Body.urlencoded (constructURI
      [("grant_type".data, "authorization_code".data),
       ("code".data, code),
       ("redirect_uri".data, optStr (getOpt s.options "redirect_uri".data))]
      [])) }

/-- `getAuthToken` (spotifyStrategy.ts lines 106-153) up to the fetch:
short-circuits on `'error'`, splits at `=` then `&`, decodes the code,
assembles the token request.  `URI1[1]` is `undefined` when the query
contains no `=`, so the subsequent `.split('&')` throws. -/
def getAuthToken (base64 : Str → Str) (s : Strategy) (search : Str) :
    TokenPhase :=
  let OGURI := search
  if hasSub "error".data OGURI then TokenPhase.errVal tokenErrMsg
  else
    match (splitOnChar '=' OGURI)[1]? with
    | none => TokenPhase.thrown
    | some u1 =>
      match (splitOnChar '&' u1)[0]? with
      | none => TokenPhase.thrown
      | some seg => TokenPhase.fetch (tokenReq base64 s (parseCode seg))

/-- `router` (spotifyStrategy.ts lines 90-95): redirect when the query
string is falsy, code exchange when `search.slice(1, 5) === 'code'`,
fall-through otherwise. -/
def router (base64 : Str → Str) (s : Strategy) (search : Str) :
    RouterResult :=
  if search = [] then authorize s
  else if (search.drop 1).take 4 = "code".data then
    RouterResult.tokenPhase (getAuthToken base64 s search)
  else RouterResult.unhandled

def authDataErrMsg (e : Str) : Str :=
  "ERROR in getAuthData: Unable to obtain auth data - ".data ++ e

/-- The token fields copied from the parsed token payload
(spotifyStrategy.ts lines 158-165). -/
def tokenDataOf (parsed : List (Str × Str)) : TokenData :=
  { access_token := getOpt parsed "access_token".data
    token_type := getOpt parsed "token_type".data
    scope := getOpt parsed "scope".data
    expires_in := getOpt parsed "expires_in".data
    refresh_token := getOpt parsed "refresh_token".data }

/-- The user info assembled from the profile JSON
(spotifyStrategy.ts lines 185-188): `providerUserId` is just `data.id`,
absent when the response has no `id` field. -/
def userInfoOf (data : List (Str × Str)) : UserInfo :=
  { provider := providerName
    providerUserId := getOpt data "id".data }

/-- `getAuthData` (spotifyStrategy.ts lines 157-194).  The profile fetch
and its JSON parse are the external transport; their outcome is the
`profileResp` argument (`Except.error` models a thrown fetch/parse). -/
def getAuthData (parsed : List (Str × Str))
    (profileResp : Except Str (List (Str × Str))) : DataResult :=
  match profileResp with
  | Except.error e => DataResult.err (authDataErrMsg e)
  | Except.ok data =>
    DataResult.ret { tokenData := tokenDataOf parsed,
                     userInfo := userInfoOf data }

end Spotify

namespace GitHub

def providerName : Str := "github".data
def authURL : Str := "https://github.com/login/oauth/authorize?".data
def tokenURL : Str := "https://github.com/login/oauth/access_token?".data
def authDataURL : Str := "https://api.github.com/user?".data
def ctorMsg : Str :=
  "ERROR in GitHubStrategy constructor: Missing required arguments".data
def tokenErrMsg : Str :=
  "ERROR in getAuthToken: Received an error from auth token code request.".data

/-- The fields of a constructed `GitHubStrategy` instance. -/
structure Strategy where
  options : List (Str × Str)
  uriFromParams : Str
deriving DecidableEq

/-- The `GitHubStrategy` constructor (githubStrategy.ts lines 26-37):
throws unless `client_id`, `redirect_uri` and `client_secret` are truthy;
caches `constructURI(this.options)` — note: no skip list, so
`client_secret` is kept in the cached query string. -/
def make (options : List (Str × Str)) : Except Str Strategy :=
  if !truthy (getOpt options "client_id".data)
      || !truthy (getOpt options "redirect_uri".data)
      || !truthy (getOpt options "client_secret".data) then
    Except.error ctorMsg
  else
    Except.ok { options := options, uriFromParams := constructURI options [] }

/-- `authorize` (githubStrategy.ts lines 96-98). -/
def authorize (s : Strategy) : RouterResult :=
  RouterResult.redirect (authURL ++ s.uriFromParams)

/-- The token request assembled at githubStrategy.ts lines 120-138:
JSON body `{client_id, client_secret, redirect_uri, code}` POSTed to the
bare access_token URL. -/
def tokenReq (s : Strategy) (code : Str) : FetchReq :=
  { url := "https://github.com/login/oauth/access_token".data
    method := "POST".data
    headers := [("Accept".data, "application/json".data),
                ("Content-Type".data, "application/json".data)]
    body := some (Body.jsonObj
      [("client_id".data, optStr (getOpt s.options "client_id".data)),
       ("client_secret".data, optStr (getOpt s.options "client_secret".data)),
       ("redirect_uri".data, optStr (getOpt s.options "redirect_uri".data)),
       ("code".data, code)]) }

/-- `getAuthToken` (githubStrategy.ts lines 104-152) up to the fetch. -/
def getAuthToken (s : Strategy) (search : Str) : TokenPhase :=
  let OGURI := search
  if hasSub "error".data OGURI then TokenPhase.errVal tokenErrMsg
  else
    match (splitOnChar '=' OGURI)[1]? with
    | none => TokenPhase.thrown
    | some u1 =>
      match (splitOnChar '&' u1)[0]? with
      | none => TokenPhase.thrown
      | some seg => TokenPhase.fetch (tokenReq s (parseCode seg))

/-- `router` (githubStrategy.ts lines 87-93). -/
def router (s : Strategy) (search : Str) : RouterResult :=
  if search = [] then authorize s
  else if (search.drop 1).take 4 = "code".data then
    RouterResult.tokenPhase (getAuthToken s search)
  else RouterResult.unhandled

def authDataErrMsg (e : Str) : Str :=
  "ERROR in getAuthData: Unable to obtain auth data - ".data ++ e

/-- The token fields copied from the parsed token payload
(githubStrategy.ts lines 157-162). -/
def tokenDataOf (parsed : List (Str × Str)) : TokenData :=
  { access_token := getOpt parsed "access_token".data
    scope := getOpt parsed "scope".data
    token_type := getOpt parsed "token_type".data }

/-- The user info assembled from the profile JSON
(githubStrategy.ts lines 179-187). -/
def userInfoOf (data : List (Str × Str)) : UserInfo :=
  { provider := providerName
    providerUserId := getOpt data "id".data
    displayName := getOpt data "login".data
    nameParts := some { familyName := getOpt data "name".data }
    emails := [getOpt data "email".data] }

/-- `getAuthData` (githubStrategy.ts lines 156-193). -/
def getAuthData (parsed : List (Str × Str))
    (profileResp : Except Str (List (Str × Str))) : DataResult :=
  match profileResp with
  | Except.error e => DataResult.err (authDataErrMsg e)
  | Except.ok data =>
    DataResult.ret { tokenData := tokenDataOf parsed,
                     userInfo := userInfoOf data }

end GitHub

namespace Local

def errMsg : Str :=
  "ERROR in router: No Username or Password submitted for authorization".data

/-- `LocalStrategy.router` (localStrategy.ts lines 57-67): awaits the
request body, passes it to the injected `_authorize` callback, and wraps
the result as `{ userInfo }`; any rejection (missing body value or a
failing callback, both modelled as `Except.error`) is caught and the
fixed Error value is returned. -/
def router {U V : Type} (strategyAuth : U → Except Str V)
    (bodyVal : Except Str U) : LocalResult V :=
  match bodyVal with
  | Except.error _ => LocalResult.err errMsg
  | Except.ok u =>
    match strategyAuth u with
    | Except.error _ => LocalResult.err errMsg
    | Except.ok v => LocalResult.ret v

end Local

/-- Masking of the `client_secret` value: two option bags are "equal up to
client_secret" exactly when their images under this map agree. -/
def maskSecret (kv : Str × Str) : Str × Str :=
  if kv.1 = "client_secret".data then (kv.1, []) else kv

/-- Modelled from the claim wording of C8: "the segment between the first
'=' and the first '&'" of a query string. -/
def claimSegment (q : Str) : Str := upTo '&' (dropThrough '=' q)

/-- A sample valid Spotify option bag (used by concrete witnesses and
counterexamples). -/
def spOpts0 : List (Str × Str) :=
  [("client_id".data, "a".data), ("client_secret".data, "topsecret".data),
   ("redirect_uri".data, "r".data), ("state".data, "s".data)]

/-- The strategy instance `SpotifyStrategy` constructs from `spOpts0`. -/
def spStrat0 : Spotify.Strategy :=
  { options := spOpts0, uriFromParams := constructURI spOpts0 ["client_secret".data] }

/-- A sample valid GitHub option bag. -/
def ghOpts0 : List (Str × Str) :=
  [("client_id".data, "a".data), ("client_secret".data, "s3cr3t".data),
   ("redirect_uri".data, "r".data)]

/-- The strategy instance `GitHubStrategy` constructs from `ghOpts0`. -/
def ghStrat0 : GitHub.Strategy :=
  { options := ghOpts0, uriFromParams := constructURI ghOpts0 [] }

/-- An option bag containing exactly the three options the spec calls
mandatory, all non-empty, and nothing else. -/
def spOpts10 : List (Str × Str) :=
  [("client_id".data, "a".data), ("client_secret".data, "b".data),
   ("redirect_uri".data, "c".data)]

/-! ### Basic facts about `leadsWith` and `hasSub` -/

theorem hasSub_nil_pat : ∀ s : Str, hasSub [] s = true
  | [] => by simp [hasSub]
  | _ :: _ => by simp [hasSub, leadsWith]

theorem leadsWith_append {p : Str} (t : Str) :
    ∀ {u : Str}, leadsWith p u = true → leadsWith p (u ++ t) = true := by
  induction p with
  | nil => intro u _; simp [leadsWith]
  | cons p0 ps ih =>
    intro u h
    cases u with
    | nil => simp [leadsWith] at h
    | cons c cs =>
      simp only [leadsWith, Bool.and_eq_true, decide_eq_true_eq] at h
      simp only [List.cons_append, leadsWith, Bool.and_eq_true, decide_eq_true_eq]
      exact ⟨h.1, ih h.2⟩

theorem hasSub_of_leadsWith {p s : Str} (h : leadsWith p s = true) :
    hasSub p s = true := by
  cases s with
  | nil =>
    cases p with
    | nil => simp [hasSub]
    | cons p0 ps => simp [leadsWith] at h
  | cons c cs => simp [hasSub, h]

theorem hasSub_append_left {p a : Str} (t : Str) (h : hasSub p a = true) :
    hasSub p (a ++ t) = true := by
  induction a with
  | nil =>
    simp only [hasSub, decide_eq_true_eq] at h
    subst h
    exact hasSub_nil_pat t
  | cons c cs ih =>
    simp only [hasSub, Bool.or_eq_true] at h
    rcases h with h | h
    · have := leadsWith_append t h
      simp only [List.cons_append] at this ⊢
      simp [hasSub, this]
    · simp [hasSub, ih h]

theorem hasSub_append_right {p b : Str} (t : Str) (h : hasSub p b = true) :
    hasSub p (t ++ b) = true := by
  induction t with
  | nil => exact h
  | cons c t' ih => simp [hasSub, ih]

theorem leadsWith_insert :
    ∀ (p : Str) (r : Char), r ∉ p → ∀ (a b : Str),
      leadsWith p (a ++ r :: b) = true → leadsWith p a = true := by
  intro p
  induction p with
  | nil => intro r _ a b _; simp [leadsWith]
  | cons p0 ps ih =>
    intro r hr a b h
    cases a with
    | nil =>
      exfalso
      simp only [List.nil_append, leadsWith, Bool.and_eq_true,
        decide_eq_true_eq] at h
      exact hr (by rw [← h.1]; exact List.mem_cons_self p0 ps)
    | cons c a' =>
      simp only [List.cons_append, leadsWith, Bool.and_eq_true] at h ⊢
      exact ⟨h.1, ih r (fun hm => hr (List.mem_cons_of_mem _ hm)) a' b h.2⟩

theorem hasSub_insert :
    ∀ (p : Str) (r : Char), r ∉ p → ∀ (a b : Str),
      hasSub p (a ++ r :: b) = true →
      hasSub p a = true ∨ hasSub p b = true := by
  intro p r hr a
  induction a with
  | nil =>
    intro b h
    simp only [List.nil_append, hasSub, Bool.or_eq_true] at h
    rcases h with h | h
    · cases p with
      | nil => left; simp [hasSub]
      | cons p0 ps =>
        exfalso
        simp only [leadsWith, Bool.and_eq_true, decide_eq_true_eq] at h
        exact hr (by rw [← h.1]; exact List.mem_cons_self p0 ps)
    · right; exact h
  | cons c a' ih =>
    intro b h
    simp only [List.cons_append, hasSub, Bool.or_eq_true] at h
    rcases h with h | h
    · left
      exact hasSub_of_leadsWith (leadsWith_insert p r hr (c :: a') b h)
    · rcases ih b h with h' | h'
      · left; simp [hasSub, h']
      · right; exact h'

theorem leadsWith_eq_append :
    ∀ (p s : Str), leadsWith p s = true → s = p ++ s.drop p.length := by
  intro p
  induction p with
  | nil => intro s _; simp
  | cons p0 ps ih =>
    intro s h
    cases s with
    | nil => simp [leadsWith] at h
    | cons c cs =>
      simp only [leadsWith, Bool.and_eq_true, decide_eq_true_eq] at h
      rw [h.1]
      simpa using ih cs h.2

/-! ### The replacement loop of `parseCode` -/

theorem replFirst_spec (q rep : Str) (hq : q ≠ []) :
    ∀ s : Str,
      (hasSub q s = false ∧ replFirst q rep s = s) ∨
      ∃ a b, s = a ++ q ++ b ∧ replFirst q rep s = a ++ rep ++ b := by
  intro s
  induction s with
  | nil =>
    left
    refine ⟨by simp [hasSub, hq], rfl⟩
  | cons c cs ih =>
    by_cases h : leadsWith q (c :: cs) = true
    · right
      refine ⟨[], (c :: cs).drop q.length, ?_, ?_⟩
      · simpa using leadsWith_eq_append q (c :: cs) h
      · simp [replFirst, h]
    · have h' : leadsWith q (c :: cs) = false := by
        cases hx : leadsWith q (c :: cs)
        · rfl
        · exact absurd hx h
      rcases ih with ⟨h1, h2⟩ | ⟨a, b, h1, h2⟩
      · left
        refine ⟨by simp [hasSub, h', h1], by simp [replFirst, h', h2]⟩
      · right
        exact ⟨c :: a, b, by simp [h1], by simp [replFirst, h', h2]⟩

theorem replFirst_no_new (p q : Str) (r : Char) (hr : r ∉ p) (hq : q ≠ [])
    (s : Str) (h : hasSub p s = false) :
    hasSub p (replFirst q [r] s) = false := by
  rcases replFirst_spec q [r] hq s with ⟨_, h2⟩ | ⟨a, b, h1, h2⟩
  · rw [h2]; exact h
  · rw [h2]
    cases hx : hasSub p (a ++ [r] ++ b)
    · rfl
    · exfalso
      have hx' : hasSub p (a ++ r :: b) = true := by
        rw [List.append_assoc] at hx; exact hx
      rw [h1] at h
      rcases hasSub_insert p r hr a b hx' with hA | hB
      · have := hasSub_append_left (q ++ b) hA
        rw [List.append_assoc] at h
        rw [h] at this; cases this
      · have := hasSub_append_right (a ++ q) hB
        rw [h] at this; cases this

theorem whileRepl_no_sub (q rep : Str) (hq : q ≠ [])
    (hlen : rep.length < q.length) :
    ∀ (n : Nat) (s : Str), s.length < n →
      hasSub q (whileRepl q rep n s) = false := by
  intro n
  induction n with
  | zero => intro s hs; exact absurd hs (Nat.not_lt_zero _)
  | succ n ih =>
    intro s hs
    cases hx : hasSub q s
    · simp [whileRepl, hx]
    · rcases replFirst_spec q rep hq s with ⟨h1, _⟩ | ⟨a, b, h1, h2⟩
      · rw [hx] at h1; cases h1
      · simp only [whileRepl, hx, if_true]
        apply ih
        rw [h2]
        have hlens := congrArg List.length h1
        simp only [List.length_append] at hlens ⊢
        omega

theorem whileRepl_preserve (p q : Str) (r : Char) (hr : r ∉ p) (hq : q ≠ []) :
    ∀ (n : Nat) (s : Str), hasSub p s = false →
      hasSub p (whileRepl q [r] n s) = false := by
  intro n
  induction n with
  | zero => intro s h; exact h
  | succ n ih =>
    intro s h
    cases hx : hasSub q s
    · simp [whileRepl, hx]; exact h
    · simp only [whileRepl, hx, if_true]
      exact ih _ (replFirst_no_new p q r hr hq s h)

theorem whileRepl_id (q rep : Str) (n : Nat) (s : Str)
    (h : hasSub q s = false) : whileRepl q rep n s = s := by
  cases n with
  | zero => rfl
  | succ n => simp [whileRepl, h]

theorem decodeStep_no_sub (pr : Str × Char) (h1 : pr.1 ≠ [])
    (h2 : 1 < pr.1.length) (s : Str) :
    hasSub pr.1 (decodeStep s pr) = false :=
  whileRepl_no_sub pr.1 [pr.2] h1 (by simpa using h2) (s.length + 1) s
    (Nat.lt_succ_self _)

theorem foldl_decode_preserve (p : Str) :
    ∀ (l : List (Str × Char)), (∀ pr ∈ l, pr.2 ∉ p ∧ pr.1 ≠ []) →
      ∀ s, hasSub p s = false → hasSub p (l.foldl decodeStep s) = false := by
  intro l
  induction l with
  | nil => intro _ s h; exact h
  | cons pr t ih =>
    intro hl s h
    have hpr := hl pr (List.mem_cons_self _ _)
    simp only [List.foldl_cons]
    exact ih (fun x hx => hl x (List.mem_cons_of_mem _ hx)) _
      (whileRepl_preserve p pr.1 pr.2 hpr.1 hpr.2 _ s h)

theorem replacements_wf : ∀ pr ∈ replacements, pr.1 ≠ [] ∧ 1 < pr.1.length := by
  decide

theorem replacements_disjoint :
    ∀ pr ∈ replacements, ∀ pq ∈ replacements, pr.2 ∉ pq.1 := by
  decide

theorem parseCode_no_code (s : Str) (pr : Str × Char)
    (hpr : pr ∈ replacements) : hasSub pr.1 (parseCode s) = false := by
  obtain ⟨pre, post, hsplit⟩ := List.append_of_mem hpr
  rw [parseCode, hsplit, List.foldl_append, List.foldl_cons]
  have hwf := replacements_wf pr hpr
  apply foldl_decode_preserve
  · intro x hx
    have hxmem : x ∈ replacements := by
      rw [hsplit]
      exact List.mem_append.mpr (Or.inr (List.mem_cons_of_mem _ hx))
    exact ⟨replacements_disjoint x hxmem pr hpr, (replacements_wf x hxmem).1⟩
  · exact decodeStep_no_sub pr hwf.1 hwf.2 _

theorem foldl_decode_id :
    ∀ (l : List (Str × Char)) (s : Str),
      (∀ pr ∈ l, hasSub pr.1 s = false) → l.foldl decodeStep s = s := by
  intro l
  induction l with
  | nil => intro s _; rfl
  | cons pr t ih =>
    intro s h
    have h0 : decodeStep s pr = s :=
      whileRepl_id pr.1 [pr.2] _ s (h pr (List.mem_cons_self _ _))
    simp only [List.foldl_cons, h0]
    exact ih s (fun x hx => h x (List.mem_cons_of_mem _ hx))

/-! ### `parseCode` equals the one-pass specification decoder -/

theorem repl_len3 : ∀ p ∈ replacements, p.1.length = 3 := by decide

theorem repl_inj :
    ∀ p1 ∈ replacements, ∀ p2 ∈ replacements, p1.1 = p2.1 → p1.2 = p2.2 := by
  decide

theorem repl_lit_ne_pct : ∀ pr ∈ replacements, pr.2 ≠ '%' := by decide

theorem code_shape : ∀ pq ∈ replacements,
    ∃ c1 c2, pq.1 = ['%', c1, c2] ∧ c1 ≠ '%' ∧ c2 ≠ '%' := by
  intro pq h
  simp only [replacements, List.mem_cons, List.not_mem_nil, or_false] at h
  rcases h with rfl | rfl | rfl | rfl | rfl | rfl | rfl | rfl | rfl | rfl
  · exact ⟨'2', '4', by decide, by decide, by decide⟩
  · exact ⟨'2', '6', by decide, by decide, by decide⟩
  · exact ⟨'2', 'B', by decide, by decide, by decide⟩
  · exact ⟨'2', 'C', by decide, by decide, by decide⟩
  · exact ⟨'2', 'F', by decide, by decide, by decide⟩
  · exact ⟨'3', 'A', by decide, by decide, by decide⟩
  · exact ⟨'3', 'B', by decide, by decide, by decide⟩
  · exact ⟨'3', 'D', by decide, by decide, by decide⟩
  · exact ⟨'3', 'F', by decide, by decide, by decide⟩
  · exact ⟨'4', '0', by decide, by decide, by decide⟩

theorem leadsWith_three (a b c x y z : Char) (w : Str) :
    leadsWith [a, b, c] (x :: y :: z :: w)
      = (decide (a = x) && (decide (b = y) && decide (c = z))) := by
  simp [leadsWith]

theorem leadsWith_take3 {p s : Str} (h : leadsWith p s = true)
    (h3 : p.length = 3) : p = s.take 3 := by
  have happ := leadsWith_eq_append p s h
  calc p = (p ++ s.drop p.length).take p.length := (List.take_left p _).symm
    _ = s.take p.length := by rw [← happ]
    _ = s.take 3 := by rw [h3]

theorem findRepl_eq_none (l : List (Str × Char)) (s : Str) :
    findRepl l s = none ↔ ∀ pr ∈ l, leadsWith pr.1 s = false := by
  induction l with
  | nil => simp [findRepl]
  | cons pr t ih =>
    cases h : leadsWith pr.1 s with
    | true =>
      simp only [findRepl, h, if_true]
      constructor
      · intro hx
        cases hx
      · intro hall
        rw [hall pr (List.mem_cons_self _ _)] at h
        cases h
    | false =>
      rw [show findRepl (pr :: t) s = findRepl t s by simp [findRepl, h]]
      rw [ih]
      constructor
      · intro hall x hx
        rcases List.mem_cons.mp hx with rfl | hx'
        · exact h
        · exact hall x hx'
      · intro hall x hx
        exact hall x (List.mem_cons_of_mem _ hx)

theorem findRepl_some_mem :
    ∀ (l : List (Str × Char)) (s : Str) (lit : Char),
      findRepl l s = some lit →
      ∃ pr, pr ∈ l ∧ pr.2 = lit ∧ leadsWith pr.1 s = true := by
  intro l
  induction l with
  | nil => intro s lit h; cases h
  | cons pr t ih =>
    intro s lit h
    by_cases hx : leadsWith pr.1 s = true
    · refine ⟨pr, List.mem_cons_self _ _, ?_, hx⟩
      rw [show findRepl (pr :: t) s = some pr.2 by simp [findRepl, hx]] at h
      exact Option.some.inj h
    · have hx' : leadsWith pr.1 s = false := by
        cases hy : leadsWith pr.1 s
        · rfl
        · exact absurd hy hx
      rw [show findRepl (pr :: t) s = findRepl t s by
        simp [findRepl, hx']] at h
      obtain ⟨x, hmem, hlit, hl⟩ := ih s lit h
      exact ⟨x, List.mem_cons_of_mem _ hmem, hlit, hl⟩

theorem findRepl_mem :
    ∀ (l : List (Str × Char)) (q : Str) (r : Char) (s : Str),
      (q, r) ∈ l → leadsWith q s = true →
      (∀ p1 ∈ l, ∀ p2 ∈ l, p1.1 = p2.1 → p1.2 = p2.2) →
      (∀ p ∈ l, p.1.length = 3) →
      findRepl l s = some r := by
  intro l
  induction l with
  | nil => intro q r s hm _ _ _; cases hm
  | cons pr t ih =>
    intro q r s hm hq hinj hlen
    by_cases hx : leadsWith pr.1 s = true
    · have e1 : pr.1 = s.take 3 :=
        leadsWith_take3 hx (hlen pr (List.mem_cons_self _ _))
      have e2 : q = s.take 3 := leadsWith_take3 hq (hlen (q, r) hm)
      have e3 : pr.1 = q := by rw [e1, e2]
      have e4 : pr.2 = r := hinj pr (List.mem_cons_self _ _) (q, r) hm e3
      simp [findRepl, hx, e4]
    · have hx' : leadsWith pr.1 s = false := by
        cases hy : leadsWith pr.1 s
        · rfl
        · exact absurd hy hx
      have hmt : (q, r) ∈ t := by
        rcases List.mem_cons.mp hm with he | ht
        · exfalso
          rw [← he] at hx
          exact hx hq
        · exact ht
      rw [show findRepl (pr :: t) s = findRepl t s by simp [findRepl, hx']]
      exact ih q r s hmt hq
        (fun p1 h1 p2 h2 =>
          hinj p1 (List.mem_cons_of_mem _ h1) p2 (List.mem_cons_of_mem _ h2))
        (fun p h => hlen p (List.mem_cons_of_mem _ h))

theorem findRepl_congr :
    ∀ (l : List (Str × Char)) (s1 s2 : Str),
      (∀ pr ∈ l, leadsWith pr.1 s1 = leadsWith pr.1 s2) →
      findRepl l s1 = findRepl l s2 := by
  intro l
  induction l with
  | nil => intro _ _ _; rfl
  | cons pr t ih =>
    intro s1 s2 h
    have h0 := h pr (List.mem_cons_self _ _)
    simp only [findRepl, h0]
    by_cases hx : leadsWith pr.1 s2 = true
    · simp [hx]
    · have hx' : leadsWith pr.1 s2 = false := by
        cases hy : leadsWith pr.1 s2
        · rfl
        · exact absurd hy hx
      simp only [hx', Bool.false_eq_true, if_false]
      exact ih s1 s2 (fun x hxm => h x (List.mem_cons_of_mem _ hxm))

theorem specDecode_nil : specDecode [] = [] := by
  rw [specDecode]

theorem specDecode_cons_some {c lit : Char} {cs : Str}
    (h : findRepl replacements (c :: cs) = some lit) :
    specDecode (c :: cs) = lit :: specDecode ((c :: cs).drop 3) := by
  rw [specDecode, h]

theorem specDecode_cons_none {c : Char} {cs : Str}
    (h : findRepl replacements (c :: cs) = none) :
    specDecode (c :: cs) = c :: specDecode cs := by
  rw [specDecode, h]

theorem specDecode_replFirst (pr : Str × Char) (hpr : pr ∈ replacements) :
    ∀ s : Str, specDecode (replFirst pr.1 [pr.2] s) = specDecode s := by
  obtain ⟨q1, q2, hq, _, _⟩ := code_shape pr hpr
  have hprq : (pr.1, pr.2) ∈ replacements := hpr
  have main : ∀ (n : Nat) (s : Str), s.length ≤ n →
      specDecode (replFirst pr.1 [pr.2] s) = specDecode s := by
    intro n
    induction n with
    | zero =>
      intro s hs
      have h0 : s = [] := List.length_eq_zero.mp (Nat.le_zero.mp hs)
      subst h0
      rfl
    | succ n ih =>
      intro s hs
      cases s with
      | nil => rfl
      | cons c cs =>
        by_cases hlead : leadsWith pr.1 (c :: cs) = true
        · -- the code itself is a prefix: `replFirst` rewrites it to the
          -- literal, which starts no code, and `specDecode` would have
          -- produced the same literal for the same three characters
          obtain ⟨rest, hrest⟩ : ∃ rest, c :: cs = '%' :: q1 :: q2 :: rest :=
            ⟨(c :: cs).drop 3, by
              have happ := leadsWith_eq_append pr.1 (c :: cs) hlead
              rw [hq] at happ
              simpa using happ⟩
          injection hrest with hc hcs
          subst hc
          subst hcs
          have hlead2 : leadsWith ['%', q1, q2] ('%' :: q1 :: q2 :: rest)
              = true := by
            rw [← hq]
            exact hlead
          have hrepl : replFirst pr.1 [pr.2] ('%' :: q1 :: q2 :: rest)
              = pr.2 :: rest := by
            simp [replFirst, hq, hlead2]
          have hfind : findRepl replacements ('%' :: q1 :: q2 :: rest)
              = some pr.2 :=
            findRepl_mem replacements pr.1 pr.2 _ hprq hlead repl_inj
              repl_len3
          have hnone : findRepl replacements (pr.2 :: rest) = none := by
            rw [findRepl_eq_none]
            intro x hx
            obtain ⟨x1, x2, hxs, _, _⟩ := code_shape x hx
            rw [hxs]
            have hpc : decide ('%' = pr.2) = false := by
              simp only [decide_eq_false_iff_not]
              intro h'
              exact repl_lit_ne_pct pr hpr h'.symm
            simp [leadsWith, hpc]
          rw [hrepl, specDecode_cons_none hnone, specDecode_cons_some hfind]
          rfl
        · have hlead' : leadsWith pr.1 (c :: cs) = false := by
            cases hy : leadsWith pr.1 (c :: cs)
            · rfl
            · exact absurd hy hlead
          have hrepl : replFirst pr.1 [pr.2] (c :: cs)
              = c :: replFirst pr.1 [pr.2] cs := by
            simp [replFirst, hlead']
          cases hf : findRepl replacements (c :: cs) with
          | some lit =>
            -- some other code is a prefix; the replacement inside the
            -- tail happens beyond it, so both scans decode it alike
            obtain ⟨x, hxm, hxlit, hxlead⟩ :=
              findRepl_some_mem replacements (c :: cs) lit hf
            obtain ⟨d1, d2, hxs, hd1, hd2⟩ := code_shape x hxm
            rw [hxs] at hxlead
            obtain ⟨rest, hrest⟩ : ∃ rest, c :: cs = '%' :: d1 :: d2 :: rest :=
              ⟨(c :: cs).drop 3, by
                have happ := leadsWith_eq_append ['%', d1, d2] (c :: cs) hxlead
                simpa using happ⟩
            injection hrest with hc hcs
            subst hc
            subst hcs
            have hn1 : leadsWith pr.1 (d1 :: d2 :: rest) = false := by
              rw [hq]
              have hc1 : decide ('%' = d1) = false := by
                simp only [decide_eq_false_iff_not]
                intro h'
                exact hd1 h'.symm
              simp [leadsWith, hc1]
            have hn2 : leadsWith pr.1 (d2 :: rest) = false := by
              rw [hq]
              have hc2 : decide ('%' = d2) = false := by
                simp only [decide_eq_false_iff_not]
                intro h'
                exact hd2 h'.symm
              simp [leadsWith, hc2]
            have hrepl2 : replFirst pr.1 [pr.2] (d1 :: d2 :: rest)
                = d1 :: d2 :: replFirst pr.1 [pr.2] rest := by
              simp [replFirst, hn1, hn2]
            have hcongr : findRepl replacements
                ('%' :: d1 :: d2 :: replFirst pr.1 [pr.2] rest)
                = some lit := by
              rw [← hf]
              apply findRepl_congr
              intro y hy
              obtain ⟨e1, e2, hys, _, _⟩ := code_shape y hy
              rw [hys, leadsWith_three, leadsWith_three]
            have hlen : rest.length ≤ n := by
              simp only [List.length_cons] at hs
              omega
            rw [hrepl, hrepl2, specDecode_cons_some hcongr,
              specDecode_cons_some hf]
            show lit :: specDecode (replFirst pr.1 [pr.2] rest)
                = lit :: specDecode rest
            rw [ih rest hlen]
          | none =>
            -- no code is a prefix, and a replacement inside the tail
            -- cannot create one (the literal occurs in no code)
            have hnone2 : findRepl replacements
                (c :: replFirst pr.1 [pr.2] cs) = none := by
              have hqne : pr.1 ≠ [] := by
                rw [hq]
                simp
              rcases replFirst_spec pr.1 [pr.2] hqne cs with
                ⟨_, h2⟩ | ⟨a, b, h1, h2⟩
              · rw [h2]
                exact hf
              · rw [h2]
                rw [findRepl_eq_none]
                intro y hy
                cases hyl : leadsWith y.1 (c :: (a ++ [pr.2] ++ b))
                · rfl
                · exfalso
                  have hnot : pr.2 ∉ y.1 :=
                    replacements_disjoint pr hpr y hy
                  have hyl' : leadsWith y.1 ((c :: a) ++ pr.2 :: b)
                      = true := by
                    rw [show (c :: a) ++ pr.2 :: b
                        = c :: (a ++ [pr.2] ++ b) by simp]
                    exact hyl
                  have hpre := leadsWith_insert y.1 pr.2 hnot (c :: a) b hyl'
                  have hext := leadsWith_append (pr.1 ++ b) hpre
                  rw [show (c :: a) ++ (pr.1 ++ b) = c :: cs by
                    rw [h1]; simp] at hext
                  rw [findRepl_eq_none] at hf
                  rw [hf y hy] at hext
                  cases hext
            have hlen : cs.length ≤ n := by
              simp only [List.length_cons] at hs
              omega
            rw [hrepl, specDecode_cons_none hnone2,
              specDecode_cons_none hf, ih cs hlen]
  intro s
  exact main s.length s (le_refl _)

theorem specDecode_whileRepl (pr : Str × Char) (hpr : pr ∈ replacements) :
    ∀ (n : Nat) (s : Str),
      specDecode (whileRepl pr.1 [pr.2] n s) = specDecode s := by
  intro n
  induction n with
  | zero => intro s; rfl
  | succ n ih =>
    intro s
    cases hx : hasSub pr.1 s
    · simp [whileRepl, hx]
    · simp only [whileRepl, hx, if_true]
      rw [ih (replFirst pr.1 [pr.2] s), specDecode_replFirst pr hpr s]

theorem specDecode_foldl :
    ∀ l : List (Str × Char), (∀ pr ∈ l, pr ∈ replacements) →
      ∀ s : Str, specDecode (l.foldl decodeStep s) = specDecode s := by
  intro l
  induction l with
  | nil => intro _ s; rfl
  | cons pr t ih =>
    intro hl s
    simp only [List.foldl_cons]
    rw [ih (fun x hx => hl x (List.mem_cons_of_mem _ hx)) (decodeStep s pr)]
    exact specDecode_whileRepl pr (hl pr (List.mem_cons_self _ _))
      (s.length + 1) s

theorem specDecode_id_of_no_code :
    ∀ s : Str, (∀ pr ∈ replacements, hasSub pr.1 s = false) →
      specDecode s = s := by
  intro s
  induction s with
  | nil => intro _; exact specDecode_nil
  | cons c cs ih =>
    intro h
    have hnone : findRepl replacements (c :: cs) = none := by
      rw [findRepl_eq_none]
      intro x hx
      cases hy : leadsWith x.1 (c :: cs)
      · rfl
      · exfalso
        have := hasSub_of_leadsWith hy
        rw [h x hx] at this
        cases this
    rw [specDecode_cons_none hnone]
    congr 1
    apply ih
    intro x hx
    have hx2 := h x hx
    cases hy : hasSub x.1 cs
    · rfl
    · exfalso
      have : hasSub x.1 (c :: cs) = true := by simp [hasSub, hy]
      rw [hx2] at this
      cases this

theorem parseCode_eq_specDecode : ∀ s : Str, parseCode s = specDecode s := by
  intro s
  have h1 : specDecode (parseCode s) = parseCode s :=
    specDecode_id_of_no_code (parseCode s)
      (fun pr hpr => parseCode_no_code s pr hpr)
  have h2 : specDecode (parseCode s) = specDecode s :=
    specDecode_foldl replacements (fun _ h => h) s
  rw [← h1, h2]

/-! ### Characterization of `constructURI` -/

theorem uriFold_append (skip : List Str) :
    ∀ (opts : List (Str × Str)) (a : Str),
      opts.foldl (uriStep skip) a = a ++ opts.foldl (uriStep skip) [] := by
  intro opts
  induction opts with
  | nil => intro a; simp
  | cons kv t ih =>
    intro a
    simp only [List.foldl_cons]
    rw [ih (uriStep skip a kv), ih (uriStep skip [] kv)]
    by_cases h : hasKey skip kv.1 = true
    · simp [uriStep, h]
    · have h' : hasKey skip kv.1 = false := by
        cases hx : hasKey skip kv.1
        · rfl
        · exact absurd hx h
      simp [uriStep, h', List.append_assoc]

theorem uriFold_chunks (skip : List Str) :
    ∀ opts : List (Str × Str),
      opts.foldl (uriStep skip) [] =
        ampChunks ((opts.filter (fun kv => !hasKey skip kv.1)).map
          (fun kv => kv.1 ++ '=' :: kv.2)) := by
  intro opts
  induction opts with
  | nil => rfl
  | cons kv t ih =>
    simp only [List.foldl_cons]
    rw [uriFold_append]
    by_cases h : hasKey skip kv.1 = true
    · simp [uriStep, h, List.filter_cons, ih]
    · have h' : hasKey skip kv.1 = false := by
        cases hx : hasKey skip kv.1
        · rfl
        · exact absurd hx h
      simp [uriStep, h', List.filter_cons, ih, ampChunks, List.append_assoc]

theorem ampChunks_join :
    ∀ F : List Str, F ≠ [] → ampChunks F = joinAmp F ++ ['&'] := by
  intro F
  induction F with
  | nil => intro h; exact absurd rfl h
  | cons x t ih =>
    intro _
    cases t with
    | nil => simp [ampChunks, joinAmp]
    | cons y t' =>
      calc ampChunks (x :: y :: t') = x ++ '&' :: ampChunks (y :: t') := rfl
        _ = x ++ '&' :: (joinAmp (y :: t') ++ ['&']) := by rw [ih (by simp)]
        _ = joinAmp (x :: y :: t') ++ ['&'] := by
            simp [joinAmp, List.append_assoc]

theorem stripAmp_ampChunks (F : List Str) :
    stripAmp (ampChunks F) = joinAmp F := by
  cases F with
  | nil => simp [ampChunks, joinAmp, stripAmp]
  | cons x t =>
    rw [ampChunks_join _ (by simp)]
    unfold stripAmp
    simp [List.getLast?_concat, List.dropLast_concat]

theorem constructURI_eq (opts : List (Str × Str)) (skip : List Str) :
    constructURI opts skip =
      joinAmp ((opts.filter (fun kv => !hasKey skip kv.1)).map
        (fun kv => kv.1 ++ '=' :: kv.2)) := by
  rw [constructURI, uriFold_chunks, stripAmp_ampChunks]

/-! ### Substring-freedom of the assembled redirect URL -/

theorem hasSub_joinAmp (p : Str) (hp : p ≠ []) (hamp : '&' ∉ p) :
    ∀ l : List Str, (∀ x ∈ l, hasSub p x = false) →
      hasSub p (joinAmp l) = false := by
  intro l
  induction l with
  | nil => intro _; simp [joinAmp, hasSub, hp]
  | cons x t ih =>
    intro hl
    cases t with
    | nil => exact hl x (List.mem_cons_self _ _)
    | cons y t' =>
      show hasSub p (x ++ '&' :: joinAmp (y :: t')) = false
      cases hx : hasSub p (x ++ '&' :: joinAmp (y :: t'))
      · rfl
      · exfalso
        rcases hasSub_insert p '&' hamp x (joinAmp (y :: t')) hx with h1 | h1
        · rw [hl x (List.mem_cons_self _ _)] at h1; cases h1
        · have := ih (fun z hz => hl z (List.mem_cons_of_mem _ hz))
          rw [this] at h1; cases h1

theorem hasSub_free_pieces (opts : List (Str × Str)) (p : Str)
    (heq : '=' ∉ p)
    (hopts : ∀ kv ∈ opts, kv.1 ≠ "client_secret".data →
      hasSub p kv.1 = false ∧ hasSub p kv.2 = false) :
    ∀ x ∈ (opts.filter
        (fun kv => !hasKey ["client_secret".data] kv.1)).map
        (fun kv => kv.1 ++ '=' :: kv.2),
      hasSub p x = false := by
  intro x hxm
  rcases List.mem_map.mp hxm with ⟨kv, hkv, rfl⟩
  rcases List.mem_filter.mp hkv with ⟨hkvopts, hkeep⟩
  have hne : kv.1 ≠ "client_secret".data := by
    intro hcs
    simp [hasKey, hcs] at hkeep
  rcases hopts kv hkvopts hne with ⟨hk, hv⟩
  cases hy : hasSub p (kv.1 ++ '=' :: kv.2)
  · rfl
  · exfalso
    rcases hasSub_insert p '=' heq kv.1 kv.2 hy with h2 | h2
    · rw [hk] at h2; cases h2
    · rw [hv] at h2; cases h2

theorem hasSub_free_spotify_redirect (opts : List (Str × Str)) (p : Str)
    (hp : p ≠ []) (hamp : '&' ∉ p) (heq : '=' ∉ p) (hqm : '?' ∉ p)
    (hauth : hasSub p Spotify.authURL = false)
    (hopts : ∀ kv ∈ opts, kv.1 ≠ "client_secret".data →
      hasSub p kv.1 = false ∧ hasSub p kv.2 = false) :
    hasSub p (Spotify.authURL ++ constructURI opts ["client_secret".data])
      = false := by
  rw [constructURI_eq]
  have hbody : Spotify.authURL
      = "https://accounts.spotify.com/authorize".data ++ ['?'] := by decide
  rw [hbody, List.append_assoc]
  cases hx : hasSub p ("https://accounts.spotify.com/authorize".data
      ++ ('?' :: joinAmp ((opts.filter
        (fun kv => !hasKey ["client_secret".data] kv.1)).map
        (fun kv => kv.1 ++ '=' :: kv.2))))
  · rw [← hx]; rfl
  · exfalso
    rcases hasSub_insert p '?' hqm _ _ hx with h1 | h1
    · have := hasSub_append_left ['?'] h1
      rw [← hbody, hauth] at this; cases this
    · have := hasSub_joinAmp p hp hamp _ (hasSub_free_pieces opts p heq hopts)
      rw [this] at h1; cases h1

/-! ### Configurations that differ only in `client_secret` -/

theorem filter_mask_eq :
    ∀ o1 o2 : List (Str × Str), o1.map maskSecret = o2.map maskSecret →
      o1.filter (fun kv => !hasKey ["client_secret".data] kv.1)
        = o2.filter (fun kv => !hasKey ["client_secret".data] kv.1) := by
  intro o1
  induction o1 with
  | nil =>
    intro o2 h
    cases o2 with
    | nil => rfl
    | cons b t2 => simp at h
  | cons a t ih =>
    intro o2 h
    cases o2 with
    | nil => simp at h
    | cons b t2 =>
      simp only [List.map_cons, List.cons.injEq] at h
      obtain ⟨hab, ht⟩ := h
      by_cases ha : a.1 = "client_secret".data
      · have hb : b.1 = "client_secret".data := by
          by_cases hb : b.1 = "client_secret".data
          · exact hb
          · exfalso
            rw [maskSecret, if_pos ha, maskSecret, if_neg hb] at hab
            exact hb ((congrArg Prod.fst hab).symm.trans ha)
        have ha' : hasKey ["client_secret".data] a.1 = true := by
          simp [hasKey, ha]
        have hb' : hasKey ["client_secret".data] b.1 = true := by
          simp [hasKey, hb]
        simp only [List.filter_cons, ha', hb', Bool.not_true,
          Bool.false_eq_true, if_neg (by simp : ¬False)]
        exact ih t2 ht
      · have hb : b.1 ≠ "client_secret".data := by
          intro hb
          rw [maskSecret, if_neg ha, maskSecret, if_pos hb] at hab
          exact ha ((congrArg Prod.fst hab).trans hb)
        have hab' : a = b := by
          rw [maskSecret, if_neg ha, maskSecret, if_neg hb] at hab
          exact hab
        have ha' : hasKey ["client_secret".data] a.1 = false := by
          simp [hasKey]
          intro hcs
          exact absurd hcs.symm ha
        have hb' : hasKey ["client_secret".data] b.1 = false := by
          simp [hasKey]
          intro hcs
          exact absurd hcs.symm hb
        simp only [List.filter_cons, ha', hb', Bool.not_false, if_pos trivial]
        rw [hab', ih t2 ht]

/-! ### Splitting the callback query -/

theorem splitOnChar_ne_nil (sep : Char) : ∀ l : Str, splitOnChar sep l ≠ [] := by
  intro l
  cases l with
  | nil => simp [splitOnChar]
  | cons c cs =>
    by_cases h : c = sep
    · simp [splitOnChar, h]
    · simp only [splitOnChar, if_neg h]
      cases splitOnChar sep cs <;> simp

theorem splitOnChar_head (sep : Char) :
    ∀ l : Str, (splitOnChar sep l)[0]? = some (upTo sep l) := by
  intro l
  induction l with
  | nil => rfl
  | cons c cs ih =>
    by_cases h : c = sep
    · simp [splitOnChar, upTo, h]
    · simp only [splitOnChar, upTo, if_neg h]
      cases hx : splitOnChar sep cs with
      | nil => exact absurd hx (splitOnChar_ne_nil sep cs)
      | cons t ts =>
        rw [hx] at ih
        simp only [List.getElem?_cons_zero, Option.some.injEq] at ih ⊢
        rw [ih]

theorem splitOnChar_append_sep (sep : Char) :
    ∀ (a b : Str), sep ∉ a →
      splitOnChar sep (a ++ sep :: b) = a :: splitOnChar sep b := by
  intro a
  induction a with
  | nil => intro b _; simp [splitOnChar]
  | cons c a' ih =>
    intro b ha
    have hc : ¬(c = sep) := by
      intro h
      exact ha (by rw [← h]; exact List.mem_cons_self _ _)
    simp only [List.cons_append, splitOnChar, if_neg hc, List.append_eq]
    rw [ih b (fun hm => ha (List.mem_cons_of_mem _ hm))]

theorem upTo_append (sep : Char) :
    ∀ (a b : Str), sep ∉ a → upTo sep (a ++ b) = a ++ upTo sep b := by
  intro a
  induction a with
  | nil => intro b _; rfl
  | cons c a' ih =>
    intro b ha
    have hc : ¬(c = sep) := by
      intro h
      exact ha (by rw [← h]; exact List.mem_cons_self _ _)
    simp only [List.cons_append, upTo, if_neg hc, List.append_eq]
    rw [ih b (fun hm => ha (List.mem_cons_of_mem _ hm))]

/-- The segment `URI1[1]` then `URI2[0]` that `getAuthToken` extracts from
a well-formed callback query `?code=<v>&<rest>` is exactly `<v>`. -/
theorem extract_code_eq (v r : Str) (hv1 : '=' ∉ v) (hv2 : '&' ∉ v) :
    (splitOnChar '=' ("?code=".data ++ v ++ '&' :: r))[1]?
        = some (v ++ '&' :: upTo '=' r)
    ∧ (splitOnChar '&' (v ++ '&' :: upTo '=' r))[0]? = some v := by
  constructor
  · have hshape : "?code=".data ++ v ++ '&' :: r
        = "?code".data ++ '=' :: (v ++ '&' :: r) := by
      have : "?code=".data = "?code".data ++ ['='] := by decide
      rw [this, List.append_assoc, List.append_assoc]
      rfl
    rw [hshape, splitOnChar_append_sep '=' _ _ (by decide)]
    have h0 := splitOnChar_head '=' (v ++ '&' :: r)
    have hup : upTo '=' (v ++ '&' :: r) = v ++ '&' :: upTo '=' r := by
      rw [upTo_append '=' v _ hv1]
      simp [upTo]
    rw [hup] at h0
    simpa using h0
  · rw [splitOnChar_head '&' _, upTo_append '&' v _ hv2]
    simp [upTo]

/-! ### The claims -/

/-- C5: `constructURI m s` contains each entry of `m` whose key is not in
the skip list, exactly once as `key=value`, in insertion order, joined by
single `&` separators with no leading or trailing `&`; the empty bag
encodes to the empty string and the single entry `a=1` encodes with no
trailing `&`. -/
theorem claim_c5 :
    (∀ (m : List (Str × Str)) (s : List Str),
      constructURI m s =
        joinAmp ((m.filter (fun kv => !hasKey s kv.1)).map
          (fun kv => kv.1 ++ '=' :: kv.2)))
    ∧ constructURI [] [] = []
    ∧ constructURI [("a".data, "1".data)] [] = "a=1".data :=
  ⟨fun m s => constructURI_eq m s, rfl, by decide⟩

/-- C6: on every input, `parseCode` equals `specDecode`, the one-pass
specification decoder that replaces each occurrence of each of the ten
fixed percent-encodings with its literal character from the table and
copies every other character (any other percent-encoding included)
unchanged; the repeated-substitution loops terminate and reach a joint
fixed point (no table code survives in the output); strings containing
none of the ten codes are returned unchanged; and
`parseCode "a%3Db%26c" = "a=b&c"`. -/
theorem claim_c6 :
    (∀ s : Str, parseCode s = specDecode s)
    ∧ (∀ s : Str, ∀ pr ∈ replacements, hasSub pr.1 (parseCode s) = false)
    ∧ (∀ s : Str, (∀ pr ∈ replacements, hasSub pr.1 s = false) →
        parseCode s = s)
    ∧ parseCode "a%3Db%26c".data = "a=b&c".data :=
  ⟨parseCode_eq_specDecode,
   fun s pr hpr => parseCode_no_code s pr hpr,
   fun s h => foldl_decode_id replacements s h,
   by decide⟩

/-- C6 witness: the specification-equality part at a mixed input (a
non-table encoding `%7E` next to a table one), the fixed-point part at an
input with a repeated encoding, and the untouched part at a code-free
string. -/
theorem claim_c6_witness :
    parseCode "x%7E%26y".data = specDecode "x%7E%26y".data
    ∧ hasSub "%26".data (parseCode "x%26%26y".data) = false
    ∧ parseCode "plain%7E".data = "plain%7E".data :=
  ⟨claim_c6.1 "x%7E%26y".data,
   claim_c6.2.1 "x%26%26y".data ("%26".data, '&') (by decide),
   claim_c6.2.2.1 "plain%7E".data (by decide)⟩

/-- C3: at the failing input `?code` (a callback query with no `=`), the
router of both OAuth strategies dispatches into the code-exchange phase,
which throws an uncaught TypeError (`URI1[1]` is `undefined`) instead of
returning an error value. -/
theorem claim_c3 :
    Spotify.router id spStrat0 "?code".data
      = RouterResult.tokenPhase TokenPhase.thrown
    ∧ GitHub.router ghStrat0 "?code".data
      = RouterResult.tokenPhase TokenPhase.thrown :=
  ⟨by decide, by decide⟩

/-- C7: every callback query containing the substring `error` makes the
code-exchange phase of both strategies return the error value immediately,
and the token-exchange fetch request is never produced. -/
theorem claim_c7 :
    ∀ search : Str, hasSub "error".data search = true →
      (∀ (base64 : Str → Str) (st : Spotify.Strategy),
        Spotify.getAuthToken base64 st search
            = TokenPhase.errVal Spotify.tokenErrMsg
        ∧ ∀ req, Spotify.getAuthToken base64 st search ≠ TokenPhase.fetch req)
      ∧ (∀ gt : GitHub.Strategy,
        GitHub.getAuthToken gt search = TokenPhase.errVal GitHub.tokenErrMsg
        ∧ ∀ req, GitHub.getAuthToken gt search ≠ TokenPhase.fetch req) := by
  intro search h
  constructor
  · intro base64 st
    have he : Spotify.getAuthToken base64 st search
        = TokenPhase.errVal Spotify.tokenErrMsg := by
      simp [Spotify.getAuthToken, h]
    exact ⟨he, fun req hreq => by rw [he] at hreq; cases hreq⟩
  · intro gt
    have he : GitHub.getAuthToken gt search
        = TokenPhase.errVal GitHub.tokenErrMsg := by
      simp [GitHub.getAuthToken, h]
    exact ⟨he, fun req hreq => by rw [he] at hreq; cases hreq⟩

/-- C7 witness: concrete callback queries containing `error`. -/
theorem claim_c7_witness :
    Spotify.getAuthToken id spStrat0 "?code=x&error=access_denied".data
      = TokenPhase.errVal Spotify.tokenErrMsg
    ∧ GitHub.getAuthToken ghStrat0 "?error=1".data
      = TokenPhase.errVal GitHub.tokenErrMsg :=
  ⟨((claim_c7 "?code=x&error=access_denied".data (by decide)).1 id spStrat0).1,
   ((claim_c7 "?error=1".data (by decide)).2 ghStrat0).1⟩

/-- C9 counterexample: when the injected callback fails with its own
failure value (`db down`), the local router returns the fixed credential
error message, which is not that failure value — the callback's failure is
replaced, not propagated. -/
theorem claim_c9_counterexample :
    Local.router (fun _ : Str => (Except.error "db down".data : Except Str Str))
        (Except.ok "alice".data)
      = LocalResult.err Local.errMsg
    ∧ Local.errMsg ≠ "db down".data :=
  ⟨rfl, by decide⟩

/-- C9 (amended): the local router never produces an outbound HTTP
request; on success it returns `{ userInfo }` with the value produced by
the injected callback; when the body value is missing or the callback
fails, it returns the fixed error value (the same for every failure). -/
theorem claim_c9 :
    ∀ {U V : Type} (strategyAuth : U → Except Str V)
      (bodyVal : Except Str U),
      (∀ req, Local.router strategyAuth bodyVal ≠ LocalResult.fetch req)
      ∧ (∀ u v, bodyVal = Except.ok u → strategyAuth u = Except.ok v →
          Local.router strategyAuth bodyVal = LocalResult.ret v)
      ∧ (∀ e, bodyVal = Except.error e →
          Local.router strategyAuth bodyVal = LocalResult.err Local.errMsg)
      ∧ (∀ u e, bodyVal = Except.ok u → strategyAuth u = Except.error e →
          Local.router strategyAuth bodyVal = LocalResult.err Local.errMsg) := by
  intro U V strategyAuth bodyVal
  refine ⟨?_, ?_, ?_, ?_⟩
  · intro req h
    cases bodyVal with
    | error e => simp [Local.router] at h
    | ok u =>
      cases hx : strategyAuth u with
      | error e => simp [Local.router, hx] at h
      | ok v => simp [Local.router, hx] at h
  · intro u v h1 h2
    subst h1
    simp [Local.router, h2]
  · intro e h1
    subst h1
    rfl
  · intro u e h1 h2
    subst h1
    simp [Local.router, h2]

/-- C9 witness: the success path at concrete credentials. -/
theorem claim_c9_witness :
    Local.router (fun u : Str => (Except.ok u : Except Str Str))
        (Except.ok "alice".data)
      = LocalResult.ret "alice".data :=
  (claim_c9 (fun u : Str => (Except.ok u : Except Str Str))
    (Except.ok "alice".data)).2.1 "alice".data "alice".data rfl rfl

/-- C10 counterexample: an option bag with non-empty `client_id`,
`client_secret` and `redirect_uri` and no other key still makes the
Spotify constructor throw, because it also requires `state`. -/
theorem claim_c10_counterexample :
    truthy (getOpt spOpts10 "client_id".data) = true
    ∧ truthy (getOpt spOpts10 "client_secret".data) = true
    ∧ truthy (getOpt spOpts10 "redirect_uri".data) = true
    ∧ getOpt spOpts10 "state".data = none
    ∧ Spotify.make spOpts10 = Except.error Spotify.ctorMsg :=
  ⟨by decide, by decide, by decide, by decide, rfl⟩

/-- C10 (amended): the GitHub constructor throws exactly when one of
`client_id`, `redirect_uri`, `client_secret` is missing or empty; the
Spotify constructor additionally requires a non-empty `state`. -/
theorem claim_c10 :
    ∀ opts : List (Str × Str),
      ((∃ e, GitHub.make opts = Except.error e) ↔
        (truthy (getOpt opts "client_id".data) = false
          ∨ truthy (getOpt opts "redirect_uri".data) = false
          ∨ truthy (getOpt opts "client_secret".data) = false))
      ∧ ((∃ e, Spotify.make opts = Except.error e) ↔
        (truthy (getOpt opts "client_id".data) = false
          ∨ truthy (getOpt opts "redirect_uri".data) = false
          ∨ truthy (getOpt opts "state".data) = false
          ∨ truthy (getOpt opts "client_secret".data) = false)) := by
  intro opts
  constructor
  · rw [GitHub.make]
    split
    case isTrue h =>
      constructor
      · intro _
        simp only [Bool.or_eq_true, Bool.not_eq_true'] at h
        tauto
      · intro _
        exact ⟨_, rfl⟩
    case isFalse h =>
      constructor
      · rintro ⟨e, he⟩
        cases he
      · intro hc
        exfalso
        apply h
        simp only [Bool.or_eq_true, Bool.not_eq_true']
        tauto
  · rw [Spotify.make]
    split
    case isTrue h =>
      constructor
      · intro _
        simp only [Bool.or_eq_true, Bool.not_eq_true'] at h
        tauto
      · intro _
        exact ⟨_, rfl⟩
    case isFalse h =>
      constructor
      · rintro ⟨e, he⟩
        cases he
      · intro hc
        exfalso
        apply h
        simp only [Bool.or_eq_true, Bool.not_eq_true']
        tauto

/-- C1 counterexample: the GitHub strategy caches
`constructURI(this.options)` with no skip list, so its redirect URL
contains the `client_secret` value and differs from
`authorizeURL + encode(options, skip={client_secret})`. -/
theorem claim_c1_counterexample :
    GitHub.make ghOpts0 = Except.ok ghStrat0
    ∧ GitHub.router ghStrat0 []
        = RouterResult.redirect (GitHub.authURL ++ constructURI ghOpts0 [])
    ∧ hasSub "s3cr3t".data (GitHub.authURL ++ constructURI ghOpts0 []) = true
    ∧ GitHub.authURL ++ constructURI ghOpts0 []
        ≠ GitHub.authURL ++ constructURI ghOpts0 ["client_secret".data] :=
  ⟨rfl, rfl, by decide, by decide⟩

/-- C1 (amended): for the Spotify strategy, a request with no query
string yields exactly the redirect
`authorizeURL + encode(options, skip={client_secret})`; two Spotify
option bags equal up to their `client_secret` values yield identical
encodings; and a secret value free of `&`, `=`, `?` that occurs in
neither the authorize URL nor any other key or value never appears as a
substring of the redirect URL.  (The GitHub strategy violates the claim:
see the counterexample.) -/
theorem claim_c1 :
    (∀ (opts : List (Str × Str)) (st : Spotify.Strategy)
        (base64 : Str → Str),
      Spotify.make opts = Except.ok st →
      Spotify.router base64 st []
        = RouterResult.redirect
            (Spotify.authURL ++ constructURI opts ["client_secret".data]))
    ∧ (∀ o1 o2 : List (Str × Str), o1.map maskSecret = o2.map maskSecret →
        constructURI o1 ["client_secret".data]
          = constructURI o2 ["client_secret".data])
    ∧ (∀ (opts : List (Str × Str)) (p : Str),
        p ≠ [] → '&' ∉ p → '=' ∉ p → '?' ∉ p →
        hasSub p Spotify.authURL = false →
        (∀ kv ∈ opts, kv.1 ≠ "client_secret".data →
          hasSub p kv.1 = false ∧ hasSub p kv.2 = false) →
        hasSub p
          (Spotify.authURL ++ constructURI opts ["client_secret".data])
          = false) := by
  refine ⟨?_, ?_, ?_⟩
  · intro opts st base64 h
    rw [Spotify.make] at h
    split at h
    · cases h
    · simp only [Except.ok.injEq] at h
      subst h
      rfl
  · intro o1 o2 h
    rw [constructURI_eq, constructURI_eq, filter_mask_eq o1 o2 h]
  · intro opts p hp hamp heq hqm hauth hopts
    exact hasSub_free_spotify_redirect opts p hp hamp heq hqm hauth hopts

/-- C1 witness: the amended theorem at `spOpts0`, a masked variant of it,
and the concrete secret `topsecret`. -/
theorem claim_c1_witness :
    Spotify.router id spStrat0 []
      = RouterResult.redirect
          (Spotify.authURL ++ constructURI spOpts0 ["client_secret".data])
    ∧ constructURI spOpts0 ["client_secret".data]
        = constructURI
            [("client_id".data, "a".data),
             ("client_secret".data, "other".data),
             ("redirect_uri".data, "r".data), ("state".data, "s".data)]
            ["client_secret".data]
    ∧ hasSub "topsecret".data
        (Spotify.authURL ++ constructURI spOpts0 ["client_secret".data])
        = false :=
  ⟨claim_c1.1 spOpts0 spStrat0 id rfl,
   claim_c1.2.1 spOpts0 _ (by decide),
   claim_c1.2.2 spOpts0 "topsecret".data (by decide) (by decide) (by decide)
     (by decide) (by decide) (by decide)⟩

/-- C2 counterexample: the query `?codex` does not have `code=` as the
five characters after the leading `?`, yet the router dispatches it into
the code-exchange phase instead of leaving it unhandled (the phase then
throws on the missing `=`). -/
theorem claim_c2_counterexample :
    Spotify.router id spStrat0 "?codex".data
      = RouterResult.tokenPhase TokenPhase.thrown
    ∧ ("?codex".data.drop 1).take 5 ≠ "code=".data :=
  ⟨by decide, by decide⟩

/-- C2 (amended): with no query string both routers redirect; otherwise
they dispatch to code exchange exactly when `search.slice(1, 5)` — the
FOUR characters at indices 1-4 — equals `code` (not the five characters
`code=`); every other shape falls through unhandled. -/
theorem claim_c2 :
    ∀ search : Str,
      (search = [] →
        (∀ (base64 : Str → Str) (st : Spotify.Strategy),
          Spotify.router base64 st search
            = RouterResult.redirect (Spotify.authURL ++ st.uriFromParams))
        ∧ (∀ gt : GitHub.Strategy,
          GitHub.router gt search
            = RouterResult.redirect (GitHub.authURL ++ gt.uriFromParams)))
      ∧ (search ≠ [] → (search.drop 1).take 4 = "code".data →
        (∀ (base64 : Str → Str) (st : Spotify.Strategy),
          Spotify.router base64 st search
            = RouterResult.tokenPhase (Spotify.getAuthToken base64 st search))
        ∧ (∀ gt : GitHub.Strategy,
          GitHub.router gt search
            = RouterResult.tokenPhase (GitHub.getAuthToken gt search)))
      ∧ (search ≠ [] → (search.drop 1).take 4 ≠ "code".data →
        (∀ (base64 : Str → Str) (st : Spotify.Strategy),
          Spotify.router base64 st search = RouterResult.unhandled)
        ∧ (∀ gt : GitHub.Strategy,
          GitHub.router gt search = RouterResult.unhandled)) := by
  intro search
  refine ⟨?_, ?_, ?_⟩
  · intro h
    subst h
    exact ⟨fun _ _ => rfl, fun _ => rfl⟩
  · intro h1 h2
    have h2' : List.take 4 (List.tail search) = ['c', 'o', 'd', 'e'] := by
      rw [← List.drop_one]
      exact h2
    constructor
    · intro base64 st
      simp [Spotify.router, h1, h2']
    · intro gt
      simp [GitHub.router, h1, h2']
  · intro h1 h2
    have h2' : ¬(List.take 4 (List.tail search) = ['c', 'o', 'd', 'e']) := by
      intro hx
      apply h2
      rw [List.drop_one]
      exact hx
    constructor
    · intro base64 st
      simp [Spotify.router, h1, h2']
    · intro gt
      simp [GitHub.router, h1, h2']

/-- C2 witness: the three dispatch shapes at concrete queries. -/
theorem claim_c2_witness :
    Spotify.router id spStrat0 []
      = RouterResult.redirect (Spotify.authURL ++ spStrat0.uriFromParams)
    ∧ Spotify.router id spStrat0 "?code=1".data
        = RouterResult.tokenPhase
            (Spotify.getAuthToken id spStrat0 "?code=1".data)
    ∧ GitHub.router ghStrat0 "?state=1".data = RouterResult.unhandled :=
  ⟨((claim_c2 []).1 rfl).1 id spStrat0,
   ((claim_c2 "?code=1".data).2.1 (by decide) (by decide)).1 id spStrat0,
   ((claim_c2 "?state=1".data).2.2 (by decide) (by decide)).2 ghStrat0⟩

/-- C4 counterexample: a profile response with no `id` field makes
`getAuthData` return a successful AuthData whose `providerUserId` is
absent — not an error value. -/
theorem claim_c4_counterexample :
    Spotify.getAuthData []
        (Except.ok [("display_name".data, "bob".data)])
      = DataResult.ret
          { tokenData := {},
            userInfo := { provider := Spotify.providerName,
                          providerUserId := none } } :=
  rfl

/-- C4 (amended): `getAuthData` of both strategies returns an error value
exactly when the profile fetch/parse fails; on any parsed response it
returns AuthData whose `providerUserId` is the response's `id` field —
absent (with no error raised) when the response lacks `id`. -/
theorem claim_c4 :
    ∀ (parsed : List (Str × Str))
      (resp : Except Str (List (Str × Str))),
      ((∃ m, Spotify.getAuthData parsed resp = DataResult.err m) ↔
        ∃ e, resp = Except.error e)
      ∧ (∀ data, resp = Except.ok data →
          Spotify.getAuthData parsed resp
            = DataResult.ret
                { tokenData := Spotify.tokenDataOf parsed,
                  userInfo := { provider := Spotify.providerName,
                                providerUserId := getOpt data "id".data } })
      ∧ ((∃ m, GitHub.getAuthData parsed resp = DataResult.err m) ↔
        ∃ e, resp = Except.error e)
      ∧ (∀ data, resp = Except.ok data →
          GitHub.getAuthData parsed resp
            = DataResult.ret
                { tokenData := GitHub.tokenDataOf parsed,
                  userInfo :=
                    { provider := GitHub.providerName,
                      providerUserId := getOpt data "id".data,
                      displayName := getOpt data "login".data,
                      nameParts :=
                        some { familyName := getOpt data "name".data },
                      emails := [getOpt data "email".data] } }) := by
  intro parsed resp
  cases resp with
  | error e =>
    refine ⟨?_, ?_, ?_, ?_⟩
    · simp [Spotify.getAuthData]
    · intro data h
      cases h
    · simp [GitHub.getAuthData]
    · intro data h
      cases h
  | ok data =>
    refine ⟨?_, ?_, ?_, ?_⟩
    · simp [Spotify.getAuthData]
    · intro d h
      cases h
      rfl
    · simp [GitHub.getAuthData]
    · intro d h
      cases h
      rfl

/-- C4 witness: the success shape at a concrete parsed payload and
profile response containing an `id`. -/
theorem claim_c4_witness :
    Spotify.getAuthData [("access_token".data, "tok".data)]
        (Except.ok [("id".data, "u1".data)])
      = DataResult.ret
          { tokenData :=
              Spotify.tokenDataOf [("access_token".data, "tok".data)],
            userInfo := { provider := Spotify.providerName,
                          providerUserId :=
                            getOpt [("id".data, "u1".data)] "id".data } } :=
  (claim_c4 [("access_token".data, "tok".data)]
    (Except.ok [("id".data, "u1".data)])).2.1 [("id".data, "u1".data)] rfl

/-- C8 counterexample: for the callback query `?code=a=b&c` (of the form
`?code=<value>&<rest>` with `<value> = a=b`), the claimed extraction —
the decoded segment between the first `=` and the first `&` — is `a=b`,
but the code splits on every `=` first and sends `a`. -/
theorem claim_c8_counterexample :
    Spotify.getAuthToken id spStrat0 "?code=a=b&c".data
      = TokenPhase.fetch (Spotify.tokenReq id spStrat0 "a".data)
    ∧ parseCode (claimSegment "?code=a=b&c".data) = "a=b".data
    ∧ "a".data ≠ "a=b".data :=
  ⟨by decide, by decide, by decide⟩

/-- C8 (amended): for `?code=abc%26123` the extracted code is `abc&123`
and the token request carries the decoded code; in general, for a
callback `?code=<v>&<rest>` whose `<v>` contains no raw `=` or `&` and
whose full query does not contain `error`, both strategies place
`parseCode <v>` (the decoded value) in the token-exchange request. -/
theorem claim_c8 :
    (∀ (base64 : Str → Str) (st : Spotify.Strategy),
      Spotify.getAuthToken base64 st "?code=abc%26123".data
        = TokenPhase.fetch (Spotify.tokenReq base64 st "abc&123".data))
    ∧ (∀ gt : GitHub.Strategy,
      GitHub.getAuthToken gt "?code=abc%26123".data
        = TokenPhase.fetch (GitHub.tokenReq gt "abc&123".data))
    ∧ (∀ (v r : Str) (base64 : Str → Str) (st : Spotify.Strategy),
        '=' ∉ v → '&' ∉ v →
        hasSub "error".data ("?code=".data ++ v ++ '&' :: r) = false →
        Spotify.getAuthToken base64 st ("?code=".data ++ v ++ '&' :: r)
          = TokenPhase.fetch (Spotify.tokenReq base64 st (parseCode v)))
    ∧ (∀ (v r : Str) (gt : GitHub.Strategy),
        '=' ∉ v → '&' ∉ v →
        hasSub "error".data ("?code=".data ++ v ++ '&' :: r) = false →
        GitHub.getAuthToken gt ("?code=".data ++ v ++ '&' :: r)
          = TokenPhase.fetch (GitHub.tokenReq gt (parseCode v))) := by
  refine ⟨fun base64 st => rfl, fun gt => rfl, ?_, ?_⟩
  · intro v r base64 st hv1 hv2 herr
    have hex := extract_code_eq v r hv1 hv2
    simp only [Spotify.getAuthToken, herr, Bool.false_eq_true, if_false,
      hex.1, hex.2]
  · intro v r gt hv1 hv2 herr
    have hex := extract_code_eq v r hv1 hv2
    simp only [GitHub.getAuthToken, herr, Bool.false_eq_true, if_false,
      hex.1, hex.2]

/-- C8 witness: the general extraction at a concrete encoded value with a
trailing parameter. -/
theorem claim_c8_witness :
    Spotify.getAuthToken id spStrat0 "?code=x%3Ay&state=1".data
      = TokenPhase.fetch
          (Spotify.tokenReq id spStrat0 (parseCode "x%3Ay".data)) :=
  claim_c8.2.2.1 "x%3Ay".data "state=1".data id spStrat0 (by decide)
    (by decide) (by decide)

end Dashport
